import Mathlib

/-!
Verification of the ledgerlink smart contract (`ledgerlink.py`).

The contract is shallowly embedded: the persistent key-value store is a
function from keys to byte strings (NEO `Get` returns the empty byte string
for a missing key), byte strings are `List Char`, the ambient execution
context (chain height, sender script hash, witness oracle) is an explicit
`Ctx` record, and every operation returns its result value together with
the updated store and the list of emitted side-channel events, in emission
order.

Python integers are modelled as `Int`.  For a positive divisor, Lean's
`Int` division and modulus (`Int.ediv` / `Int.emod`) agree with Python's
floor division `//` and `%`, which is checked by small examples below.
The byte-string-to-integer view that the NEO VM applies when a byte string
is used as an integer operand is implementation-defined (spec section 9);
it is fixed here as the little-endian base-256 value of the bytes
(`bytesToInt`).  No theorem below depends on which conversion is chosen.
-/

namespace Ledgerlink

/-- The Base58 alphabet string from `b58encode` in the source. -/
def alphabet : List Char :=
  "123456789ABCDEFGHJKLMNPQRSTUVWXYZabcdefghijkmnopqrstuvwxyz".toList

/-- `substr(s, start, count)` from `boa.code.builtins`. -/
def substr (s : List Char) (start count : Nat) : List Char :=
  (s.drop start).take count

/-- The loop of `b58encode` (source lines 162-174).  State: the remaining
integer `i`, the counters `current_length` / `max_length`, and the code
accumulated so far (initially the single NUL byte).  Each iteration takes
the next least-significant base-58 digit of `i` and prepends its alphabet
character, replacing the initial NUL sentinel on the first iteration. -/
def b58loop (i current_length max_length : Int) (code : List Char) : List Char :=
  if _h : i ≠ 0 ∧ current_length < max_length then
    b58loop (i / 58) (current_length + 1) max_length
      (if code = ['\x00'] then substr alphabet (i % 58).toNat 1
       else substr alphabet (i % 58).toNat 1 ++ code)
  else code
termination_by (max_length - current_length).toNat
decreasing_by
  simp_wf
  omega

/-- `b58encode(i, max_length)` from the source (lines 157-176). -/
def b58encode (i max_length : Int) : List Char :=
  b58loop i 0 max_length ['\x00']

/-- Sanity check: Lean `Int` division agrees with Python `//` for the
positive divisor 58 used by the encoder. -/
example : (-7 : Int) / 58 = -1 ∧ (-7 : Int) % 58 = 51 ∧ (119 : Int) / 58 = 2 ∧
    (119 : Int) % 58 = 3 := by decide

/-- Alphabet character of one base-58 digit. -/
def b58digit (d : Nat) : Char := alphabet.getD d ' '

/-- The least-significant `b` base-58 digits of `n`, most significant first,
rendered through the alphabet: the string the truncating encoder is
specified to produce for a positive input. -/
def lsDigitsChars (n b : Nat) : List Char :=
  (((Nat.digits 58 n).take b).reverse).map b58digit

lemma b58loop_neg {i cl ml : Int} {code : List Char}
    (h : ¬(i ≠ 0 ∧ cl < ml)) : b58loop i cl ml code = code := by
  rw [b58loop, dif_neg h]

lemma b58loop_pos {i cl ml : Int} {code : List Char}
    (h1 : i ≠ 0) (h2 : cl < ml) :
    b58loop i cl ml code =
      b58loop (i / 58) (cl + 1) ml
        (if code = ['\x00'] then substr alphabet (i % 58).toNat 1
         else substr alphabet (i % 58).toNat 1 ++ code) := by
  rw [b58loop]
  rw [dif_pos ⟨h1, h2⟩]

lemma b58digit_valid : ∀ d, d < 58 → b58digit d ∈ alphabet ∧ b58digit d ≠ '\x00' := by
  decide

lemma substr_alphabet : ∀ d, d < 58 → substr alphabet d 1 = [b58digit d] := by
  decide

lemma lsDigitsChars_zero (b : Nat) : lsDigitsChars 0 b = [] := by
  simp [lsDigitsChars]

lemma lsDigitsChars_take_zero (n : Nat) : lsDigitsChars n 0 = [] := by
  simp [lsDigitsChars]

lemma lsDigitsChars_succ (n : Nat) (hn : n ≠ 0) (b : Nat) :
    lsDigitsChars n (b + 1) = lsDigitsChars (n / 58) b ++ [b58digit (n % 58)] := by
  unfold lsDigitsChars
  rw [Nat.digits_def' (by norm_num : 1 < 58) (Nat.pos_of_ne_zero hn)]
  rw [List.take_succ_cons, List.reverse_cons, List.map_append]
  rfl

lemma b58loop_acc (n : Nat) : ∀ (cl ml : Int) (acc : List Char), acc ≠ ['\x00'] →
    b58loop (n : Int) cl ml acc = lsDigitsChars n (ml - cl).toNat ++ acc := by
  induction n using Nat.strong_induction_on with
  | _ n ih =>
    intro cl ml acc hacc
    by_cases hn : n = 0
    · subst hn
      rw [b58loop_neg (by simp)]
      simp [lsDigitsChars_zero]
    · by_cases hcl : cl < ml
      · have hn' : (n : Int) ≠ 0 := by exact_mod_cast hn
        rw [b58loop_pos hn' hcl, if_neg hacc]
        have hidx : ((n : Int) % 58).toNat = n % 58 := by omega
        have hdiv : (n : Int) / 58 = ((n / 58 : Nat) : Int) := by omega
        have hmod : n % 58 < 58 := Nat.mod_lt _ (by norm_num)
        rw [hidx, hdiv, substr_alphabet _ hmod, List.singleton_append]
        have hne : (b58digit (n % 58) :: acc) ≠ ['\x00'] := by
          intro hEq
          injection hEq with h1 _
          exact (b58digit_valid _ hmod).2 h1
        rw [ih (n / 58) (Nat.div_lt_self (Nat.pos_of_ne_zero hn) (by norm_num))
          (cl + 1) ml _ hne]
        have hB : (ml - cl).toNat = (ml - (cl + 1)).toNat + 1 := by omega
        rw [hB, lsDigitsChars_succ n hn]
        simp
      · rw [b58loop_neg (by tauto)]
        have hB : (ml - cl).toNat = 0 := by omega
        rw [hB, lsDigitsChars_take_zero]
        simp

lemma b58encode_pos (n : Nat) (hn : 0 < n) {ml : Int} (hml : 0 < ml) :
    b58encode (n : Int) ml = lsDigitsChars n ml.toNat := by
  unfold b58encode
  have hn' : (n : Int) ≠ 0 := by exact_mod_cast hn.ne'
  rw [b58loop_pos hn' hml, if_pos rfl]
  have hidx : ((n : Int) % 58).toNat = n % 58 := by omega
  have hdiv : (n : Int) / 58 = ((n / 58 : Nat) : Int) := by omega
  have hmod : n % 58 < 58 := Nat.mod_lt _ (by norm_num)
  rw [hidx, hdiv, substr_alphabet _ hmod]
  have hne : [b58digit (n % 58)] ≠ ['\x00'] := by
    intro hEq
    injection hEq with h1 _
    exact (b58digit_valid _ hmod).2 h1
  rw [b58loop_acc (n / 58) (0 + 1) ml _ hne]
  have hB : ml.toNat = (ml - (0 + 1)).toNat + 1 := by omega
  rw [hB, lsDigitsChars_succ n hn.ne']

lemma b58encode_sentinel {i ml : Int} (h : i = 0 ∨ ml ≤ 0) :
    b58encode i ml = ['\x00'] := by
  unfold b58encode
  apply b58loop_neg
  rintro ⟨h1, h2⟩
  rcases h with h | h
  · exact h1 h
  · omega

lemma lsDigitsChars_length (n b : Nat) : (lsDigitsChars n b).length ≤ b := by
  simp [lsDigitsChars]

lemma lsDigitsChars_alphabet (n b : Nat) : ∀ c ∈ lsDigitsChars n b, c ∈ alphabet := by
  intro c hc
  unfold lsDigitsChars at hc
  rw [List.mem_map] at hc
  obtain ⟨d, hd, rfl⟩ := hc
  rw [List.mem_reverse] at hd
  have hd' : d ∈ Nat.digits 58 n := List.mem_of_mem_take hd
  exact (b58digit_valid d (Nat.digits_lt_base (by norm_num) hd')).1

/-- Result values of the contract: a boolean, a byte string, or the
two-element list `[url, sender]` returned by `get_url_info` (modelled as
an explicit pair of byte strings). -/
inductive SCValue where
  | bool (b : Bool)
  | bytes (s : List Char)
  | pair (url sender : List Char)
deriving DecidableEq

/-- Externally observable side effects of one invocation, in emission
order: `Runtime.Notify`, `Storage.Put`, and the registered `urladd`
action (`DispatchNewURLEvent`). -/
inductive Event where
  | notify (value : List Char)
  | put (key value : List Char)
  | urladd (code url : List Char)
deriving DecidableEq

/-- The persistent key-value store.  NEO `Storage.Get` yields the empty
byte string for a missing key, so the store is total with default `[]`. -/
def Store := List Char → List Char

/-- `Storage.Put` on the (single) storage context. -/
def Put (σ : Store) (key value : List Char) : Store :=
  fun k => if k = key then value else σ k

/-- `Storage.Get` on the (single) storage context. -/
def Get (σ : Store) (key : List Char) : List Char := σ key

/-- Ambient execution context supplied by the host: the current chain
height (`GetHeight`), the script hash of the sender of the current
transaction's first reference (`GetScriptHash(tx.References[0])`), and the
`CheckWitness` oracle. -/
structure Ctx where
  height : Int
  sender : List Char
  checkWitness : List Char → Bool

/-- The integer the VM reads off a byte string used as an integer operand.
The source leaves this to the neo-boa platform (spec section 9 flags it as
implementation-defined); it is fixed here as the little-endian base-256
value of the bytes.  No theorem depends on this choice. -/
def bytesToInt (bs : List Char) : Int :=
  bs.foldr (fun c acc => acc * 256 + (c.toNat : Int)) 0

/-- Script hash of the contract owner (source line 27). -/
def OWNER : List Char := List.replicate 20 '\x00'

/-- The URL of the associated URL shortener service (source line 30). -/
def SHORTENER_URL : List Char := "https://ledgr.link".toList

/-- The `arg_length_error` literal of `Main` (source line 56). -/
def arg_length_error : List Char := "Incorrect number of arguments".toList

/-- `get_contextkey_for_url` (source lines 179-182). -/
def get_contextkey_for_url (code : List Char) : List Char :=
  code ++ "__url".toList

/-- `get_contextkey_for_sender` (source lines 185-188). -/
def get_contextkey_for_sender (code : List Char) : List Char :=
  code ++ "__sender".toList

/-- `add_url` (source lines 99-130): derives the code from
(height, sender, url), notifies it, stores the url and the sender under
the two suffixed keys, fires the `urladd` event and returns `True`. -/
def add_url (ctx : Ctx) (url : List Char) (σ : Store) :
    SCValue × Store × List Event :=
  let current_height := ctx.height
  let sender := ctx.sender
  let s1 := b58encode current_height 11
  let s2 := b58encode (bytesToInt sender) 2
  let s3 := b58encode (bytesToInt url) 2
  let code_part1 := s1 ++ s2
  let code := code_part1 ++ s3
  let contextkey_for_url := get_contextkey_for_url code
  let contextkey_for_sender := get_contextkey_for_sender code
  let σ1 := Put σ contextkey_for_url url
  let σ2 := Put σ1 contextkey_for_sender sender
  (SCValue.bool true, σ2,
    [Event.notify code, Event.put contextkey_for_url url,
      Event.put contextkey_for_sender sender, Event.urladd code url])

/-- `get_url` (source lines 133-138). -/
def get_url (code : List Char) (σ : Store) : SCValue × Store × List Event :=
  (SCValue.bytes (Get σ (get_contextkey_for_url code)), σ, [])

/-- `get_url_info` (source lines 141-149). -/
def get_url_info (code : List Char) (σ : Store) : SCValue × Store × List Event :=
  (SCValue.pair (Get σ (get_contextkey_for_url code))
    (Get σ (get_contextkey_for_sender code)), σ, [])

/-- The invocation trigger (`GetTrigger`): `Verification`, `Application`,
or any other trigger value of the host. -/
inductive Trigger where
  | verification
  | application
  | other
deriving DecidableEq

/-- `Main` (source lines 44-96): the entry dispatcher. -/
def Main (ctx : Ctx) (trigger : Trigger) (operation : List Char)
    (args : List (List Char)) (σ : Store) : SCValue × Store × List Event :=
  if trigger = Trigger.verification then
    if ctx.checkWitness OWNER then (SCValue.bool true, σ, [])
    else (SCValue.bool false, σ, [])
  else if trigger = Trigger.application then
    if operation = "shortenerURL".toList then (SCValue.bytes SHORTENER_URL, σ, [])
    else if operation = "addURL".toList then
      match args with
      | [url] => add_url ctx url σ
      | _ => (SCValue.bytes arg_length_error, σ, [])
    else if operation = "getURL".toList then
      match args with
      | [code] => get_url code σ
      | _ => (SCValue.bytes arg_length_error, σ, [])
    else if operation = "getURLInfo".toList then
      match args with
      | [code] => get_url_info code σ
      | _ => (SCValue.bytes arg_length_error, σ, [])
    else (SCValue.bytes ("unknown operation".toList), σ, [])
  else (SCValue.bool false, σ, [])

/-- Returned value of an invocation. -/
def resultOf (r : SCValue × Store × List Event) : SCValue := r.1

/-- Store after an invocation. -/
def storeOf (r : SCValue × Store × List Event) : Store := r.2.1

/-- Events emitted by an invocation, in order. -/
def eventsOf (r : SCValue × Store × List Event) : List Event := r.2.2

/-- The ShortCode generated by a run of `add_url`: the payload of the
`Notify` it emits. -/
def addCode (ctx : Ctx) (url : List Char) (σ : Store) : List Char :=
  match eventsOf (add_url ctx url σ) with
  | Event.notify c :: _ => c
  | _ => []

lemma contextkeys_ne (code : List Char) :
    get_contextkey_for_url code ≠ get_contextkey_for_sender code := by
  intro h
  unfold get_contextkey_for_url get_contextkey_for_sender at h
  have h2 : "__url".toList = "__sender".toList := List.append_cancel_left h
  exact absurd h2 (by decide)

lemma add_url_store (ctx : Ctx) (url : List Char) (σ : Store) :
    storeOf (add_url ctx url σ) =
      Put (Put σ (get_contextkey_for_url (addCode ctx url σ)) url)
        (get_contextkey_for_sender (addCode ctx url σ)) ctx.sender := rfl

/-- C4: for every height, submitter identity and url, the code produced by
`add_url` (the payload of its `Notify`) is the plain concatenation, in
order and with no separator, of the base-58 segments of the height
(`max_length` 11), of the sender identity (`max_length` 2) and of the url
(`max_length` 2). -/
theorem code_is_segment_concat (ctx : Ctx) (url : List Char) (σ : Store) :
    addCode ctx url σ =
      (b58encode ctx.height 11 ++ b58encode (bytesToInt ctx.sender) 2) ++
        b58encode (bytesToInt url) 2 := rfl

/-- C9: the ShortCode computed by `add_url` is a pure function of the
height, the sender identity and the url: two runs under contexts that
agree on height and sender, over arbitrary (possibly different) stores and
witness oracles, generate the same code. -/
theorem code_pure_function (ctx1 ctx2 : Ctx) (σ1 σ2 : Store) (url : List Char)
    (hh : ctx1.height = ctx2.height) (hs : ctx1.sender = ctx2.sender) :
    addCode ctx1 url σ1 = addCode ctx2 url σ2 := by
  simp [addCode, add_url, eventsOf, hh, hs]

def ctxA : Ctx := ⟨5, ['\x01'], fun _ => true⟩

def ctxB : Ctx := ⟨5, ['\x01'], fun _ => false⟩

def sigmaA : Store := fun _ => []

def sigmaB : Store := fun _ => ['\x07']

/-- Witness for C9: two concrete runs differing in store and witness
oracle but agreeing on height and sender produce the same code. -/
theorem code_pure_function_witness :
    addCode ctxA ("x".toList) sigmaA = addCode ctxB ("x".toList) sigmaB :=
  code_pure_function ctxA ctxB sigmaA sigmaB ("x".toList) rfl rfl

/-- C2: after `add_url` runs for `url` under context `ctx`, looking up the
generated code with `get_url` returns exactly `url`, and `get_url_info`
returns the pair `(url, sender)` with the sender identity that was active
during that `add_url` call. -/
theorem add_get_round_trip (ctx : Ctx) (url : List Char) (σ : Store) :
    resultOf (get_url (addCode ctx url σ) (storeOf (add_url ctx url σ))) =
      SCValue.bytes url ∧
    resultOf (get_url_info (addCode ctx url σ) (storeOf (add_url ctx url σ))) =
      SCValue.pair url ctx.sender := by
  rw [add_url_store]
  have hne := contextkeys_ne (addCode ctx url σ)
  constructor
  · simp [get_url, resultOf, Get, Put, if_neg hne]
  · simp [get_url_info, resultOf, Get, Put, if_neg hne]

/-- C5: in verification mode the dispatcher returns `true` exactly when
the invocation is witnessed by `OWNER`; it touches no storage and emits no
event whatever the operation and arguments are, so no add/get/get-info
operation is reachable in that mode; and any trigger outside the two
recognized modes yields `false` with no effect. -/
theorem verification_mode_gate (ctx : Ctx) (operation : List Char)
    (args : List (List Char)) (σ : Store) :
    Main ctx Trigger.verification operation args σ =
      (SCValue.bool (ctx.checkWitness OWNER), σ, []) ∧
    Main ctx Trigger.other operation args σ = (SCValue.bool false, σ, []) := by
  constructor
  · cases h : ctx.checkWitness OWNER <;> simp [Main, h]
  · simp [Main]

def ctx0 : Ctx := ⟨0, [], fun _ => false⟩

def sigma0 : Store := fun _ => []

/-- C1 counterexample: at a concrete invocation, `addURL` with exactly one
argument in application mode returns the boolean `True`, which is not the
generated ShortCode (the value the contract notifies). -/
theorem addURL_return_value_cex :
    resultOf (Main ctx0 Trigger.application ("addURL".toList) [[]] sigma0) ≠
      SCValue.bytes (addCode ctx0 [] sigma0) := by
  have h1 : resultOf (Main ctx0 Trigger.application ("addURL".toList) [[]] sigma0) =
      SCValue.bool true := rfl
  intro h
  rw [h1] at h
  simp at h

/-- C1 (amended): invoking `addURL` with exactly one argument in
application mode returns the boolean `True`; the generated ShortCode is
communicated to observers through the `Notify` side channel (and the
`urladd` event), not through the return value. -/
theorem addURL_returns_true (ctx : Ctx) (url : List Char) (σ : Store) :
    resultOf (Main ctx Trigger.application ("addURL".toList) [url] σ) =
      SCValue.bool true ∧
    Event.notify (addCode ctx url σ) ∈
      eventsOf (Main ctx Trigger.application ("addURL".toList) [url] σ) := by
  constructor
  · rfl
  · show Event.notify (addCode ctx url σ) ∈ eventsOf (add_url ctx url σ)
    simp [addCode, add_url, eventsOf]

/-- C6 counterexample: at a concrete wrong-arity invocation the dispatcher
returns the byte string `'Incorrect number of arguments'` (capital `I`),
not the literal `"incorrect number of arguments"` stated by the claim. -/
theorem arg_error_literal_cex :
    resultOf (Main ctx0 Trigger.application ("addURL".toList) [] sigma0) ≠
      SCValue.bytes ("incorrect number of arguments".toList) ∧
    resultOf (Main ctx0 Trigger.application ("addURL".toList) [] sigma0) =
      SCValue.bytes ("Incorrect number of arguments".toList) := by
  constructor
  · decide
  · rfl

/-- C6 (amended): in application mode every unrecognized operation name
returns the literal byte string `'unknown operation'`, and `addURL`,
`getURL` and `getURLInfo` return the literal byte string
`'Incorrect number of arguments'` whenever the argument list does not have
exactly one element; both are ordinary return values (with the store
untouched and no event emitted), not exceptions. -/
theorem app_mode_error_sentinels (ctx : Ctx) (operation : List Char)
    (args : List (List Char)) (σ : Store) :
    (operation ∉ [("shortenerURL".toList), ("addURL".toList),
        ("getURL".toList), ("getURLInfo".toList)] →
      Main ctx Trigger.application operation args σ =
        (SCValue.bytes ("unknown operation".toList), σ, [])) ∧
    (args.length ≠ 1 →
      operation ∈ [("addURL".toList), ("getURL".toList), ("getURLInfo".toList)] →
      Main ctx Trigger.application operation args σ =
        (SCValue.bytes arg_length_error, σ, [])) := by
  constructor
  · intro hop
    simp only [List.mem_cons, List.not_mem_nil, or_false, not_or] at hop
    obtain ⟨h1, h2, h3, h4⟩ := hop
    unfold Main
    rw [if_neg (show ¬(Trigger.application = Trigger.verification) from by decide),
      if_pos rfl, if_neg h1, if_neg h2, if_neg h3, if_neg h4]
  · intro hlen hop
    simp only [List.mem_cons, List.not_mem_nil, or_false] at hop
    unfold Main
    rw [if_neg (show ¬(Trigger.application = Trigger.verification) from by decide),
      if_pos rfl]
    rcases hop with rfl | rfl | rfl
    · rw [if_neg (by decide), if_pos rfl]
      rcases args with _ | ⟨a, _ | ⟨b, r⟩⟩
      · rfl
      · exact absurd rfl hlen
      · rfl
    · rw [if_neg (by decide), if_neg (by decide), if_pos rfl]
      rcases args with _ | ⟨a, _ | ⟨b, r⟩⟩
      · rfl
      · exact absurd rfl hlen
      · rfl
    · rw [if_neg (by decide), if_neg (by decide), if_neg (by decide), if_pos rfl]
      rcases args with _ | ⟨a, _ | ⟨b, r⟩⟩
      · rfl
      · exact absurd rfl hlen
      · rfl

/-- Witness for C6: the unknown-operation sentinel for a concrete
unrecognized name, and the wrong-arity sentinel for `addURL` with an empty
argument list. -/
theorem app_mode_error_sentinels_witness :
    Main ctx0 Trigger.application ("frobnicate".toList) [] sigma0 =
      (SCValue.bytes ("unknown operation".toList), sigma0, []) ∧
    Main ctx0 Trigger.application ("getURL".toList) [] sigma0 =
      (SCValue.bytes arg_length_error, sigma0, []) :=
  ⟨(app_mode_error_sentinels ctx0 ("frobnicate".toList) [] sigma0).1 (by decide),
   (app_mode_error_sentinels ctx0 ("getURL".toList) [] sigma0).2 (by decide) (by decide)⟩

/-- C8: in every run of `add_url`, the `Notify` carrying the generated
code appears in the event trace strictly before any `Put` to the
persistent store (it lies in the prefix of the trace that precedes the
first `Put`), and the trace contains exactly one `urladd` event, carrying
that code and the url. -/
theorem notify_before_puts (ctx : Ctx) (url : List Char) (σ : Store) :
    Event.notify (addCode ctx url σ) ∈
      ((eventsOf (add_url ctx url σ)).takeWhile fun e =>
        match e with | Event.put _ _ => false | _ => true) ∧
    ((eventsOf (add_url ctx url σ)).filter fun e =>
        match e with | Event.urladd _ _ => true | _ => false) =
      [Event.urladd (addCode ctx url σ) url] := by
  constructor
  · simp [addCode, add_url, eventsOf, List.takeWhile]
  · simp [addCode, add_url, eventsOf, List.filter]

/-- C7: `get_url` and `get_url_info` leave the persistent store unchanged;
`add_url` turns the store into exactly the two pointwise updates at the
keys `code ++ "__url"` and `code ++ "__sender"` for the generated code;
and every dispatcher invocation that is not a one-argument `addURL` in
application mode leaves the store unchanged, so no other key is ever
written by any operation. -/
theorem store_frame (ctx : Ctx) (trigger : Trigger) (operation : List Char)
    (args : List (List Char)) (σ : Store) (code url : List Char) :
    storeOf (get_url code σ) = σ ∧
    storeOf (get_url_info code σ) = σ ∧
    storeOf (add_url ctx url σ) =
      Put (Put σ (get_contextkey_for_url (addCode ctx url σ)) url)
        (get_contextkey_for_sender (addCode ctx url σ)) ctx.sender ∧
    ((trigger = Trigger.application ∧ operation = "addURL".toList ∧
        args.length = 1) ∨
      storeOf (Main ctx trigger operation args σ) = σ) := by
  refine ⟨rfl, rfl, add_url_store ctx url σ, ?_⟩
  cases trigger with
  | verification =>
    right
    cases h : ctx.checkWitness OWNER <;> simp [Main, storeOf, h]
  | other =>
    right
    simp [Main, storeOf]
  | application =>
    unfold Main
    rw [if_neg (show ¬(Trigger.application = Trigger.verification) from by decide),
      if_pos rfl]
    by_cases h1 : operation = "shortenerURL".toList
    · right
      rw [if_pos h1]
      rfl
    · rw [if_neg h1]
      by_cases h2 : operation = "addURL".toList
      · rw [if_pos h2]
        rcases args with _ | ⟨a, _ | ⟨b, r⟩⟩
        · right; rfl
        · left; exact ⟨rfl, h2, rfl⟩
        · right; rfl
      · rw [if_neg h2]
        by_cases h3 : operation = "getURL".toList
        · rw [if_pos h3]
          rcases args with _ | ⟨a, _ | ⟨b, r⟩⟩ <;> right <;> rfl
        · rw [if_neg h3]
          by_cases h4 : operation = "getURLInfo".toList
          · rw [if_pos h4]
            rcases args with _ | ⟨a, _ | ⟨b, r⟩⟩ <;> right <;> rfl
          · rw [if_neg h4]
            right
            rfl

/-- C3: for a non-negative integer input `i` and any `max_length` `n`, a
positive `i` with positive `n` encodes to the least-significant `n`
base-58 digits of `i`, written most-significant first through the fixed
alphabet, so the result has length at most `n` and consists of alphabet
characters only; and when `i` is zero or `n ≤ 0` (the loop never
iterates) the result is exactly the single NUL byte. -/
theorem b58encode_bounded (i : Nat) (n : Int) :
    (0 < i → 0 < n →
      b58encode (i : Int) n = lsDigitsChars i n.toNat ∧
      ((b58encode (i : Int) n).length : Int) ≤ n ∧
      ∀ c ∈ b58encode (i : Int) n, c ∈ alphabet) ∧
    ((i = 0 ∨ n ≤ 0) → b58encode (i : Int) n = ['\x00']) := by
  constructor
  · intro hi hn
    have he := b58encode_pos i hi hn
    refine ⟨he, ?_, ?_⟩
    · rw [he]
      have h1 := lsDigitsChars_length i n.toNat
      omega
    · rw [he]
      exact lsDigitsChars_alphabet i n.toNat
  · intro h
    apply b58encode_sentinel
    rcases h with h | h
    · left
      exact_mod_cast h
    · right
      exact h

/-- Witness for C3: the positive case at `i = 100`, `n = 11`, and the
sentinel case at `i = 0`. -/
theorem b58encode_bounded_witness :
    b58encode ((100 : Nat) : Int) 11 = lsDigitsChars 100 (11 : Int).toNat ∧
    b58encode ((0 : Nat) : Int) 0 = ['\x00'] :=
  ⟨((b58encode_bounded 100 11).1 (by norm_num) (by norm_num)).1,
   (b58encode_bounded 0 0).2 (Or.inl rfl)⟩

/-- Number of iterations the `b58encode` loop performs from a given state:
it recurses under exactly the loop guard of `b58loop` and counts one per
iteration. -/
def b58steps (i current_length max_length : Int) : Nat :=
  if _h : i ≠ 0 ∧ current_length < max_length then
    b58steps (i / 58) (current_length + 1) max_length + 1
  else 0
termination_by (max_length - current_length).toNat
decreasing_by
  simp_wf
  omega

lemma b58steps_le (k : Nat) : ∀ (i cl ml : Int), (ml - cl).toNat = k →
    b58steps i cl ml ≤ k := by
  induction k using Nat.strong_induction_on with
  | _ k ih =>
    intro i cl ml hk
    rw [b58steps]
    split
    next h =>
      have h3 : k - 1 < k := by omega
      have h4 := ih (k - 1) h3 (i / 58) (cl + 1) ml (by omega)
      omega
    next h => omega

/-- C10: the `b58encode` loop terminates on every integer input `i`
(negative values included) and every `max_length`: since `current_length`
strictly increases toward the `max_length` bound on each iteration, the
loop runs at most `max_length` iterations. -/
theorem b58encode_loop_bounded (i max_length : Int) :
    b58steps i 0 max_length ≤ max_length.toNat := by
  have h := b58steps_le (max_length - 0).toNat i 0 max_length rfl
  omega

end Ledgerlink
